import Mathlib

/-!
Shallow embedding of the streaming segmentation-and-dispatch pipeline of
src/python/sidecar.py (the vizec speech sidecar), with proofs settling the
frozen claims about its specification.

Modelling conventions:
* Audio samples are rational numbers (Python float32 values); a numpy array
  of samples is a List of rationals.
* Python float arithmetic on configuration values is modelled over the
  rationals; the decimal literals 0.4 and 0.6 of the source appear as 2/5
  and 3/5.
* The pending-chunk list stores, next to each chunk, the sample rate the
  chunk arrived with.  This second component is a ghost annotation used to
  state the one-rate invariant; it never influences control flow, mirroring
  the Python list that stores bare arrays.
* The while-loop of SpeechSidecar.processBuffer is given an explicit fuel
  argument; the loop returning none for every fuel models divergence.
* Each regular expression of the source is compiled by hand into a scanning
  function over lists of characters; a comment at each one records the
  pattern and why the scan is equivalent to the backtracking search.
-/

namespace Vizec

/-! ### Python primitives -/

/-- Characters that Python treats as whitespace in a regular-expression
class backslash-s and in str.strip, restricted to the ASCII range. -/
def isPySpace (c : Char) : Bool :=
  c == ' ' || c == '\t' || c == '\n' || c == '\r' || c == '\x0b' || c == '\x0c'

/-- The musical-note glyphs stripped and matched by the source. -/
def isNote (c : Char) : Bool :=
  c == '♪' || c == '♫'

/-- Python int() applied to a real value: truncation toward zero. -/
def pyInt (q : ℚ) : ℤ :=
  if 0 ≤ q then ⌊q⌋ else ⌈q⌉

/-- A numpy slice buffer[:n] with an integer bound; a negative bound counts
from the end of the array. -/
def pyTake (n : ℤ) (l : List ℚ) : List ℚ :=
  if 0 ≤ n then l.take n.toNat else l.take (l.length - (-n).toNat)

/-- A numpy slice buffer[n:] with an integer bound; a negative bound counts
from the end of the array. -/
def pyDrop (n : ℤ) (l : List ℚ) : List ℚ :=
  if 0 ≤ n then l.drop n.toNat else l.drop (l.length - (-n).toNat)

/-- Python str.strip on a character list: discard leading and trailing
whitespace. -/
def trimRight (l : List Char) : List Char :=
  (l.reverse.dropWhile isPySpace).reverse

def pyStrip (l : List Char) : List Char :=
  trimRight (l.dropWhile isPySpace)

/-- Does needle occur as a contiguous substring of haystack. -/
def hasSubstring (needle : List Char) : List Char → Bool
  | [] => needle.isEmpty
  | c :: rest => needle.isPrefixOf (c :: rest) || hasSubstring needle rest

/-! ### The noise patterns (SpeechSidecar.NOISE_PATTERNS, sidecar.py 66-75)

Each pattern has the shape caret backslash-s-star OPEN [^CLOSE]* cue
[^CLOSE]* CLOSE backslash-s-star dollar (the cue part absent in the
bracket-any and paren-any patterns).  The backtracking search of re.match
is deterministic here: the leading whitespace-star must stop at the first
non-whitespace character, which must be OPEN; the two [^CLOSE]* runs cannot
contain CLOSE, so the CLOSE of the pattern is forced onto the first CLOSE
character after OPEN; and everything after it must be whitespace up to the
end.  The cue must then occur (case-insensitively, via re.I) inside the
enclosed body. -/

/-- Everything before and after the first occurrence of close; none when
close never occurs. -/
def splitAtFirst (close : Char) : List Char → Option (List Char × List Char)
  | [] => none
  | c :: rest =>
    if c == close then some ([], rest)
    else
      match splitAtFirst close rest with
      | none => none
      | some (body, tail) => some (c :: body, tail)

/-- A cue requirement on the enclosed body: absent, or required as a
case-insensitive substring (the lowering models re.I). -/
def cueOK (cue : Option (List Char)) (body : List Char) : Bool :=
  match cue with
  | none => true
  | some w => hasSubstring w (body.map Char.toLower)

/-- One NOISE_PATTERNS entry: fully delimited by openc/closec after outer
whitespace, with cue (when given) required as a case-insensitive substring
of the enclosed body. -/
def matchDelimited (openc closec : Char) (cue : Option (List Char))
    (text : List Char) : Bool :=
  match text.dropWhile isPySpace with
  | [] => false
  | c :: rest =>
    c == openc &&
      match splitAtFirst closec rest with
      | none => false
      | some (body, tail) => cueOK cue body && tail.all isPySpace

/-- The last NOISE_PATTERNS entry: whitespace, one or more musical-note
glyphs, whitespace. -/
def matchNotes (text : List Char) : Bool :=
  !((text.dropWhile isPySpace).takeWhile isNote).isEmpty &&
    ((text.dropWhile isPySpace).dropWhile isNote).all isPySpace

/-- SpeechSidecar.isNoiseText (sidecar.py 339-340): any NOISE_PATTERNS
entry matches. -/
def isNoiseText (text : String) : Bool :=
  matchDelimited '(' ')' (some "music".data) text.data ||
  matchDelimited '(' ')' (some "singing".data) text.data ||
  matchDelimited '(' ')' (some "instrumental".data) text.data ||
  matchDelimited '(' ')' (some "applause".data) text.data ||
  matchDelimited '[' ']' (some "music".data) text.data ||
  matchDelimited '[' ']' none text.data ||
  matchDelimited '(' ')' none text.data ||
  matchNotes text.data

/-! ### Word cleaning (SpeechSidecar.cleanWord, sidecar.py 342-347) -/

/-- The lazy dot-star of the first re.sub: scan for the first closing
bracket; a newline before it makes the anchored match fail, because the
regex dot does not match a newline. -/
def afterFirstCloser : List Char → Option (List Char)
  | [] => none
  | c :: rest =>
    if c == ']' || c == ')' then some rest
    else if c == '\n' then none
    else afterFirstCloser rest

/-- First substitution: remove an anchored leading group, the pattern being
caret [backslash-s open-brackets] dot-star-lazy close-brackets
backslash-s-star.  Anchoring leaves a single candidate for the class
character; the lazy run then forces the first closer, and the trailing
greedy whitespace-star extends the removed span over following
whitespace. -/
def sub1 (l : List Char) : List Char :=
  match l with
  | [] => l
  | c :: rest =>
    if isPySpace c || c == '[' || c == '(' then
      match afterFirstCloser rest with
      | some rest2 => rest2.dropWhile isPySpace
      | none => l
    else l

/-- Can the pattern dot-star-lazy close-brackets backslash-s-star dollar
complete from here: some closing bracket lies ahead with no newline before
it and only whitespace after it. -/
def closerWsTail : List Char → Bool
  | [] => false
  | c :: rest =>
    ((c == ']' || c == ')') && rest.all isPySpace) ||
    (c != '\n' && closerWsTail rest)

/-- Can the second substitution pattern, backslash-s-star open-brackets
dot-star-lazy close-brackets backslash-s-star dollar, match starting at
this position. -/
def matchTrailingGroup : List Char → Bool
  | [] => false
  | c :: rest =>
    ((c == '[' || c == '(') && closerWsTail rest) ||
    (isPySpace c && matchTrailingGroup rest)

/-- Second substitution: every match of the pattern runs to the end of the
string, so re.sub removes the suffix starting at the leftmost position
from which the pattern matches. -/
def sub2 : List Char → List Char
  | [] => []
  | c :: rest =>
    if matchTrailingGroup (c :: rest) then []
    else c :: sub2 rest

/-- Third substitution of cleanWord: delete every musical-note glyph. -/
def removeNotes (l : List Char) : List Char :=
  l.filter (fun c => !isNote c)

/-- SpeechSidecar.cleanWord (sidecar.py 342-347): strip one leading
bracketed group, one trailing bracketed group, all note glyphs, then
surrounding whitespace. -/
def cleanWord (word : String) : String :=
  ⟨pyStrip (removeNotes (sub2 (sub1 word.data)))⟩

/-! ### Options and state -/

/-- SidecarOptions (sidecar.py 56-62). -/
structure SidecarOptions where
  model : String
  language : Option String
  demucs_model : String
  segment_seconds : ℚ
  step_seconds : ℚ
deriving DecidableEq

/-- The mutable fields of SpeechSidecar that the claims concern
(sidecar.py 85-93).  Each pending chunk carries the sample rate it arrived
with as a ghost annotation (see the header comment). -/
structure SidecarState where
  ready : Bool
  enabled : Bool
  pending_chunks : List (List ℚ × ℕ)
  pending_samples : ℕ
  pending_sample_rate : Option ℕ
  last_word : Option String
  last_word_time : ℚ
deriving DecidableEq

/-- The state-reset prefix of SpeechSidecar.initialize (sidecar.py 97-103);
the remainder of the method loads the external models and is out of the
embedding (on success it sets ready). -/
def initializeState (s : SidecarState) : SidecarState :=
  { s with ready := false, enabled := false, pending_chunks := [],
           pending_samples := 0, pending_sample_rate := none }

/-- SpeechSidecar.enable (sidecar.py 145-149). -/
def enable (s : SidecarState) : SidecarState :=
  if !s.ready then s else { s with enabled := true }

/-- SpeechSidecar.disable (sidecar.py 151-156). -/
def disable (s : SidecarState) : SidecarState :=
  { s with enabled := false, pending_chunks := [], pending_samples := 0,
           pending_sample_rate := none }

/-- SpeechSidecar.appendAudio (sidecar.py 177-183): a chunk at a rate other
than (or arriving with) no recorded rate clears the buffer and re-records
the rate; the chunk is then appended and the running total advanced. -/
def appendAudio (samples : List ℚ) (sample_rate : ℕ) (s : SidecarState) :
    SidecarState :=
  let s1 :=
    if s.pending_sample_rate = none ∨ s.pending_sample_rate ≠ some sample_rate then
      { s with pending_sample_rate := some sample_rate, pending_chunks := [],
               pending_samples := 0 }
    else s
  { s1 with pending_chunks := s1.pending_chunks ++ [(samples, sample_rate)],
            pending_samples := s1.pending_samples + samples.length }

/-- The number of segment samples _process_buffer computes at line 188:
int(segment_seconds * rate). -/
def segmentSamplesOf (segment_seconds : ℚ) (rate : ℕ) : ℤ :=
  pyInt (segment_seconds * rate)

/-- The number of step samples _process_buffer computes at line 189:
int(step_seconds * rate). -/
def stepSamplesOf (step_seconds : ℚ) (rate : ℕ) : ℤ :=
  pyInt (step_seconds * rate)

/-- The while-loop of SpeechSidecar.processBuffer (sidecar.py 197-200),
with fuel: emit buffer[:segment_samples], advance to buffer[step_samples:],
while the buffer holds at least segment_samples samples.  Exhausted fuel
returns none; the loop diverging is modelled by none at every fuel. -/
def cutLoop (segment_samples step_samples : ℤ) :
    ℕ → List ℚ → Option (List (List ℚ) × List ℚ)
  | 0, _ => none
  | fuel + 1, buffer =>
    if segment_samples ≤ (buffer.length : ℤ) then
      match cutLoop segment_samples step_samples fuel (pyDrop step_samples buffer) with
      | none => none
      | some (segs, rest) => some (pyTake segment_samples buffer :: segs, rest)
    else
      some ([], buffer)

/-- SpeechSidecar.processBuffer (sidecar.py 185-202).  Returns the new
state and the segments handed to processSegment, in order; none when the
while-loop does not finish within the given fuel. -/
def processBuffer (opts : SidecarOptions) (fuel : ℕ) (s : SidecarState) :
    Option (SidecarState × List (List ℚ)) :=
  match s.pending_sample_rate with
  | none => some (s, [])
  | some rate =>
    if (s.pending_samples : ℤ) < segmentSamplesOf opts.segment_seconds rate then
      some (s, [])
    else
      match cutLoop (segmentSamplesOf opts.segment_seconds rate)
          (stepSamplesOf opts.step_seconds rate) fuel
          ((s.pending_chunks.map Prod.fst).flatten) with
      | none => none
      | some (segs, rest) =>
        some ({ s with
                  pending_chunks := if rest.length ≠ 0 then [(rest, rate)] else [],
                  pending_samples := rest.length }, segs)

/-! ### Dedup guard and per-word filtering -/

/-- SpeechSidecar.isDuplicate (sidecar.py 331-337): the current time enters
as a parameter.  A repeat of the last admitted word within 0.6 seconds is
reported as a duplicate and leaves the dedup slot untouched; any other word
overwrites the slot. -/
def isDuplicate (word : String) (now : ℚ) (s : SidecarState) :
    Bool × SidecarState :=
  if s.last_word = some word ∧ now - s.last_word_time < 3/5 then
    (true, s)
  else
    (false, { s with last_word := some word, last_word_time := now })

/-- One word hypothesis of the transcription model. -/
structure WordInfo where
  word : String
  probability : ℚ
deriving DecidableEq

/-- One emitted word event (sidecar.py 312-316). -/
structure WordEvent where
  word : String
  timestamp : ℤ
  confidence : ℚ
deriving DecidableEq

/-- The body of the word loop of SpeechSidecar.emitSegment
(sidecar.py 303-318): clean, reject empty or low-confidence words, reject
noise, reject duplicates, else emit.  The per-word calls to time.time()
are frozen to one instant per segment. -/
def emitStep (now_ms : ℤ) (now : ℚ) (acc : List WordEvent × SidecarState)
    (word_info : WordInfo) : List WordEvent × SidecarState :=
  if cleanWord word_info.word = "" ∨ word_info.probability < 2/5 then acc
  else if isNoiseText (cleanWord word_info.word) then acc
  else
    match isDuplicate (cleanWord word_info.word) now acc.2 with
    | (true, s) => (acc.1, s)
    | (false, s) =>
      (acc.1 ++ [{ word := cleanWord word_info.word, timestamp := now_ms,
                   confidence := word_info.probability }], s)

/-- The word loop of SpeechSidecar.emitSegment over a whole list of word
hypotheses. -/
def emitSegmentWords (now_ms : ℤ) (now : ℚ) (words : List WordInfo)
    (s : SidecarState) : List WordEvent × SidecarState :=
  words.foldl (emitStep now_ms now) ([], s)

/-! ### Option parsing (parse_options, sidecar.py 350-357) -/

/-- The fields an init payload may carry; a missing key is none. -/
structure Payload where
  model : Option String
  language : Option String
  demucsModel : Option String
  segmentSeconds : Option ℚ
  stepSeconds : Option ℚ
deriving DecidableEq

/-- parse_options (sidecar.py 350-357): defaults for missing keys, no
validation of any field. -/
def parse_options (payload : Payload) : SidecarOptions :=
  { model := payload.model.getD "small"
  , language := payload.language
  , demucs_model := payload.demucsModel.getD "htdemucs"
  , segment_seconds := payload.segmentSeconds.getD 6
  , step_seconds := payload.stepSeconds.getD (3/2) }

/-! ### Specification-side definitions

The definitions below follow the words of the spec and of the claims; they
exist to be compared with the code-side definitions above. -/

/-- The segments the spec predicts for one cut: segment i is the
segment-long window starting i steps into the concatenated buffer. -/
def cutSegments (seg step : ℕ) (buffer : List ℚ) (n : ℕ) : List (List ℚ) :=
  (List.range n).map fun i => (buffer.drop (i * step)).take seg

/-- The buffer-accounting invariant of the claims: the running total equals
the summed length of the pending chunks. -/
def bufferWF (s : SidecarState) : Prop :=
  s.pending_samples = (s.pending_chunks.map fun c => c.1.length).sum

/-- The one-rate invariant: every pending chunk arrived at the recorded
sample rate. -/
def rateConsistent (s : SidecarState) : Prop :=
  ∀ p ∈ s.pending_chunks, some p.2 = s.pending_sample_rate

/-- The shape rule of the claims about noise: after trimming, the text is
one opening delimiter, a body free of the closing delimiter, and the
closing delimiter. -/
def delimitedShape (openc closec : Char) (u : List Char) : Bool :=
  decide (2 ≤ u.length) && u.head? == some openc && u.getLast? == some closec &&
    ((u.drop 1).dropLast.all fun c => c != closec)

/-- The enclosed body of a trimmed delimited text, lowered for the
case-insensitive cue test. -/
def innerLower (u : List Char) : List Char :=
  ((u.drop 1).dropLast).map Char.toLower

/-- The noise rules exactly as the claim states them: fully parenthesized
with one of the four cue words inside; or fully bracketed with a music cue;
or fully bracketed with any content; or solely musical-note glyphs. -/
def claimNoise (s : String) : Bool :=
  (delimitedShape '(' ')' (pyStrip s.data) &&
    (hasSubstring "music".data (innerLower (pyStrip s.data)) ||
     hasSubstring "singing".data (innerLower (pyStrip s.data)) ||
     hasSubstring "instrumental".data (innerLower (pyStrip s.data)) ||
     hasSubstring "applause".data (innerLower (pyStrip s.data)))) ||
  (delimitedShape '[' ']' (pyStrip s.data) &&
    hasSubstring "music".data (innerLower (pyStrip s.data))) ||
  delimitedShape '[' ']' (pyStrip s.data) ||
  (!(pyStrip s.data).isEmpty && (pyStrip s.data).all isNote)

/-- The claim rules amended by the one rule the code adds: a fully
parenthesized text with any content at all is also noise. -/
def claimNoiseAmended (s : String) : Bool :=
  (delimitedShape '(' ')' (pyStrip s.data) &&
    (hasSubstring "music".data (innerLower (pyStrip s.data)) ||
     hasSubstring "singing".data (innerLower (pyStrip s.data)) ||
     hasSubstring "instrumental".data (innerLower (pyStrip s.data)) ||
     hasSubstring "applause".data (innerLower (pyStrip s.data)))) ||
  (delimitedShape '[' ']' (pyStrip s.data) &&
    hasSubstring "music".data (innerLower (pyStrip s.data))) ||
  delimitedShape '[' ']' (pyStrip s.data) ||
  delimitedShape '(' ')' (pyStrip s.data) ||
  (!(pyStrip s.data).isEmpty && (pyStrip s.data).all isNote)

/-! ### Concrete states and payloads used by witnesses and counterexamples -/

/-- A ready, not yet enabled sidecar holding one buffered chunk. -/
def exampleReadyState : SidecarState :=
  { ready := true, enabled := false, pending_chunks := [([1], 16000)],
    pending_samples := 1, pending_sample_rate := some 16000,
    last_word := none, last_word_time := 0 }

/-- A sidecar that has not finished loading its models. -/
def exampleLoadingState : SidecarState :=
  { ready := false, enabled := false, pending_chunks := [([1], 16000)],
    pending_samples := 1, pending_sample_rate := some 16000,
    last_word := none, last_word_time := 0 }

/-- An enabled sidecar with an empty buffer and an empty dedup slot. -/
def freshState : SidecarState :=
  { ready := true, enabled := true, pending_chunks := [], pending_samples := 0,
    pending_sample_rate := none, last_word := none, last_word_time := 0 }

/-- An enabled sidecar whose dedup slot admitted the word the at time 10. -/
def dedupState : SidecarState :=
  { ready := true, enabled := true, pending_chunks := [], pending_samples := 0,
    pending_sample_rate := none, last_word := some "the", last_word_time := 10 }

/-- An init payload whose stepSeconds entry is 0. -/
def zeroStepPayload : Payload :=
  { model := none, language := none, demucsModel := none,
    segmentSeconds := none, stepSeconds := some 0 }

/-- Six buffered samples at a 1 Hz sample rate: with the default
segment_seconds of 6 this buffer holds exactly one segment. -/
def sixSampleState : SidecarState :=
  { ready := true, enabled := true, pending_chunks := [([1, 1, 1, 1, 1, 1], 1)],
    pending_samples := 6, pending_sample_rate := some 1,
    last_word := none, last_word_time := 0 }

/-- Four buffered samples at a 1 Hz sample rate, for cutting with a
3-sample segment and a 1-sample step. -/
def fourSampleState : SidecarState :=
  { ready := true, enabled := true, pending_chunks := [([10, 20], 1), ([30, 40], 1)],
    pending_samples := 4, pending_sample_rate := some 1,
    last_word := none, last_word_time := 0 }

/-- Options cutting 3-sample segments with a 1-sample step at rate 1. -/
def threeOneOptions : SidecarOptions :=
  { model := "small", language := none, demucs_model := "htdemucs",
    segment_seconds := 3, step_seconds := 1 }

/-! ## Lemmas about the cut loop -/

theorem pyTake_coe (n : ℕ) (l : List ℚ) : pyTake (n : ℤ) l = l.take n := by
  unfold pyTake
  rw [if_pos (Int.natCast_nonneg n), Int.toNat_ofNat]

theorem pyDrop_coe (n : ℕ) (l : List ℚ) : pyDrop (n : ℤ) l = l.drop n := by
  unfold pyDrop
  rw [if_pos (Int.natCast_nonneg n), Int.toNat_ofNat]

theorem pyInt_of_nonneg {q : ℚ} (h : 0 ≤ q) : pyInt q = ⌊q⌋ := by
  unfold pyInt
  rw [if_pos h]

theorem prefix_pyTake (n : ℤ) (l : List ℚ) : pyTake n l <+: l := by
  unfold pyTake
  split <;> exact List.take_prefix _ _

theorem pyDrop_suffix (n : ℤ) (l : List ℚ) : pyDrop n l <:+ l := by
  unfold pyDrop
  split <;> exact List.drop_suffix _ _

theorem cutLoop_stop (segZ stepZ : ℤ) (fuel : ℕ) (buffer : List ℚ)
    (hfuel : 0 < fuel) (h : (buffer.length : ℤ) < segZ) :
    cutLoop segZ stepZ fuel buffer = some ([], buffer) := by
  cases fuel with
  | zero => exact absurd hfuel (lt_irrefl 0)
  | succ f =>
    simp only [cutLoop]
    rw [if_neg (not_le.mpr h)]

theorem cutSegments_succ (seg step : ℕ) (buffer : List ℚ) (n : ℕ) :
    cutSegments seg step buffer (n + 1) =
      buffer.take seg :: cutSegments seg step (buffer.drop step) n := by
  unfold cutSegments
  rw [List.range_succ_eq_map, List.map_cons, List.map_map]
  congr 1
  · simp
  · apply List.map_congr_left
    intro i _
    simp only [Function.comp_apply, List.drop_drop]
    have h : i.succ * step = step + i * step := by
      rw [Nat.succ_mul]
      omega
    rw [h]

theorem cutLoop_spec (seg step : ℕ) (hstep : 0 < step) (hss : step ≤ seg) :
    ∀ (fuel : ℕ) (buffer : List ℚ), buffer.length < fuel → seg ≤ buffer.length →
      cutLoop (seg : ℤ) (step : ℤ) fuel buffer =
        some (cutSegments seg step buffer ((buffer.length - seg) / step + 1),
              buffer.drop (((buffer.length - seg) / step + 1) * step)) := by
  intro fuel
  induction fuel with
  | zero => intro buffer h _; omega
  | succ f ih =>
    intro buffer hlt hseg
    have hcond : (seg : ℤ) ≤ (buffer.length : ℤ) := by exact_mod_cast hseg
    simp only [cutLoop, if_pos hcond, pyDrop_coe, pyTake_coe]
    by_cases h2 : seg ≤ buffer.length - step
    · rw [ih (buffer.drop step) (by rw [List.length_drop]; omega)
            (by rw [List.length_drop]; omega)]
      rw [List.length_drop]
      have h4 : buffer.length - seg - step = buffer.length - step - seg := by omega
      have h3 : (buffer.length - seg) / step = (buffer.length - step - seg) / step + 1 := by
        rw [← h4]
        exact Nat.div_eq_sub_div hstep (by omega)
      have h5 : (buffer.length - seg) / step + 1 =
          ((buffer.length - step - seg) / step + 1) + 1 := by omega
      rw [h5, cutSegments_succ seg step buffer ((buffer.length - step - seg) / step + 1)]
      simp only [Option.some.injEq, Prod.mk.injEq, true_and]
      rw [List.drop_drop]
      congr 1
      ring
    · rw [cutLoop_stop (seg : ℤ) (step : ℤ) f (buffer.drop step)
            (by omega)
            (by rw [List.length_drop]; exact_mod_cast (by omega : buffer.length - step < seg))]
      have hn : (buffer.length - seg) / step + 1 = 1 := by
        have := Nat.div_eq_of_lt (show buffer.length - seg < step by omega)
        omega
      rw [hn]
      simp [cutSegments, List.range_succ_eq_map]

theorem length_cutSegments (seg step : ℕ) (buffer : List ℚ) (n : ℕ) :
    (cutSegments seg step buffer n).length = n := by
  simp [cutSegments]

theorem mem_cutSegments_length (seg step : ℕ) (buffer : List ℚ) (n : ℕ)
    (h : ∀ i, i < n → i * step + seg ≤ buffer.length) :
    ∀ sg ∈ cutSegments seg step buffer n, sg.length = seg := by
  intro sg hsg
  simp only [cutSegments, List.mem_map, List.mem_range] at hsg
  obtain ⟨i, hi, rfl⟩ := hsg
  rw [List.length_take, List.length_drop]
  have := h i hi
  omega

theorem cutSegments_getD (seg step : ℕ) (buffer : List ℚ) (n i : ℕ) (h : i < n) :
    (cutSegments seg step buffer n).getD i [] = (buffer.drop (i * step)).take seg := by
  simp [cutSegments, List.getD_eq_getElem?_getD, List.getElem?_map, List.getElem?_range h]

theorem cutSegments_overlap (seg step : ℕ) (buffer : List ℚ) (n : ℕ)
    (hss : step ≤ seg) (i : ℕ) (hi : i + 1 < n)
    (hlen : (i + 1) * step + seg ≤ buffer.length) :
    ((cutSegments seg step buffer n).getD i []).drop step =
        ((cutSegments seg step buffer n).getD (i + 1) []).take (seg - step) ∧
      (((cutSegments seg step buffer n).getD i []).drop step).length = seg - step := by
  rw [cutSegments_getD seg step buffer n i (by omega),
      cutSegments_getD seg step buffer n (i + 1) hi]
  have heq : ((buffer.drop (i * step)).take seg).drop step =
      ((buffer.drop ((i + 1) * step)).take seg).take (seg - step) := by
    rw [List.drop_take, List.drop_drop, List.take_take]
    have h1 : i * step + step = (i + 1) * step := by ring
    have h2 : (seg - step) ⊓ seg = seg - step := by omega
    rw [h1, h2]
  refine ⟨heq, ?_⟩
  rw [heq, List.take_take, List.length_take, List.length_drop]
  omega

theorem cutLoop_mem_infix (segZ stepZ : ℤ) :
    ∀ (fuel : ℕ) (buffer segs rest : _), cutLoop segZ stepZ fuel buffer = some (segs, rest) →
      ∀ sg ∈ segs, sg <:+: buffer := by
  intro fuel
  induction fuel with
  | zero => intro buffer segs rest h; simp [cutLoop] at h
  | succ f ih =>
    intro buffer segs rest h sg hsg
    simp only [cutLoop] at h
    split at h
    · cases hcut : cutLoop segZ stepZ f (pyDrop stepZ buffer) with
      | none => rw [hcut] at h; simp at h
      | some p =>
        obtain ⟨segs', rest'⟩ := p
        rw [hcut] at h
        simp only [Option.some.injEq, Prod.mk.injEq] at h
        obtain ⟨h1, h2⟩ := h
        subst h1
        rcases List.mem_cons.mp hsg with h3 | h3
        · subst h3
          exact (prefix_pyTake _ _).isInfix
        · exact (ih _ _ _ hcut sg h3).trans (pyDrop_suffix _ _).isInfix
    · simp only [Option.some.injEq, Prod.mk.injEq] at h
      obtain ⟨h1, h2⟩ := h
      subst h1
      simp at hsg

theorem cutLoop_rest_lt (segZ stepZ : ℤ) :
    ∀ (fuel : ℕ) (buffer segs rest : _), cutLoop segZ stepZ fuel buffer = some (segs, rest) →
      (rest.length : ℤ) < segZ := by
  intro fuel
  induction fuel with
  | zero => intro buffer segs rest h; simp [cutLoop] at h
  | succ f ih =>
    intro buffer segs rest h
    simp only [cutLoop] at h
    split at h
    · cases hcut : cutLoop segZ stepZ f (pyDrop stepZ buffer) with
      | none => rw [hcut] at h; simp at h
      | some p =>
        obtain ⟨segs', rest'⟩ := p
        rw [hcut] at h
        simp only [Option.some.injEq, Prod.mk.injEq] at h
        obtain ⟨h1, h2⟩ := h
        subst h2
        exact ih _ _ _ hcut
    · simp only [Option.some.injEq, Prod.mk.injEq] at h
      obtain ⟨h1, h2⟩ := h
      subst h2
      omega

theorem cutLoop_zero_step (segZ : ℤ) :
    ∀ (fuel : ℕ) (buffer : List ℚ), segZ ≤ (buffer.length : ℤ) →
      cutLoop segZ 0 fuel buffer = none := by
  intro fuel
  induction fuel with
  | zero => intro buffer _; rfl
  | succ f ih =>
    intro buffer h
    have hdrop : pyDrop 0 buffer = buffer := by
      unfold pyDrop
      rw [if_pos le_rfl]
      rfl
    simp only [cutLoop, if_pos h, hdrop, ih buffer h]

/-! ## Unfolding lemmas for processBuffer -/

theorem processBuffer_none (opts : SidecarOptions) (fuel : ℕ) (s : SidecarState)
    (hr : s.pending_sample_rate = none) :
    processBuffer opts fuel s = some (s, []) := by
  unfold processBuffer
  rw [hr]

theorem processBuffer_some (opts : SidecarOptions) (fuel : ℕ) (s : SidecarState) (r : ℕ)
    (hr : s.pending_sample_rate = some r) :
    processBuffer opts fuel s =
      if (s.pending_samples : ℤ) < segmentSamplesOf opts.segment_seconds r then
        some (s, [])
      else
        match cutLoop (segmentSamplesOf opts.segment_seconds r)
            (stepSamplesOf opts.step_seconds r) fuel
            ((s.pending_chunks.map Prod.fst).flatten) with
        | none => none
        | some (segs, rest) =>
          some ({ s with
                    pending_chunks := if rest.length ≠ 0 then [(rest, r)] else [],
                    pending_samples := rest.length }, segs) := by
  unfold processBuffer
  rw [hr]

/-! ## Sample-count computations at the concrete rates of the witnesses -/

theorem segmentSamplesOf_three_one : segmentSamplesOf 3 1 = 3 := by
  unfold segmentSamplesOf
  rw [pyInt_of_nonneg (by norm_num)]
  norm_num

theorem stepSamplesOf_one_one : stepSamplesOf 1 1 = 1 := by
  unfold stepSamplesOf
  rw [pyInt_of_nonneg (by norm_num)]
  norm_num

theorem segmentSamplesOf_six_one : segmentSamplesOf 6 1 = 6 := by
  unfold segmentSamplesOf
  rw [pyInt_of_nonneg (by norm_num)]
  norm_num

theorem stepSamplesOf_zero_one : stepSamplesOf 0 1 = 0 := by
  unfold stepSamplesOf
  rw [pyInt_of_nonneg (by norm_num)]
  norm_num

/-! ## C1: segment count, segment length and overlap of one cut -/

/-- C1: when the pending buffer holds total samples at one rate with
total at least segment_samples, and 0 < step_samples at most
segment_samples, processBuffer emits exactly
(total - segment_samples) / step_samples + 1 segments, each exactly
segment_samples long, and each consecutive pair of segments overlaps in
exactly segment_samples - step_samples samples. -/
theorem processBuffer_cuts_overlapping_segments
    (opts : SidecarOptions) (fuel : ℕ) (s : SidecarState) (r seg step n : ℕ)
    (buffer : List ℚ)
    (hrate : s.pending_sample_rate = some r)
    (hbuf : buffer = (s.pending_chunks.map Prod.fst).flatten)
    (hseg : segmentSamplesOf opts.segment_seconds r = (seg : ℤ))
    (hstep : stepSamplesOf opts.step_seconds r = (step : ℤ))
    (hstep_pos : 0 < step) (hss : step ≤ seg)
    (hacct : s.pending_samples = buffer.length)
    (htotal : seg ≤ s.pending_samples)
    (hn : n = (s.pending_samples - seg) / step + 1)
    (hfuel : s.pending_samples < fuel) :
    (processBuffer opts fuel s).map Prod.snd = some (cutSegments seg step buffer n) ∧
      (cutSegments seg step buffer n).length = n ∧
      (∀ sg ∈ cutSegments seg step buffer n, sg.length = seg) ∧
      (∀ i, i + 1 < n →
        ((cutSegments seg step buffer n).getD i []).drop step =
            ((cutSegments seg step buffer n).getD (i + 1) []).take (seg - step) ∧
          (((cutSegments seg step buffer n).getD i []).drop step).length = seg - step) := by
  subst hbuf
  have hwindow : ∀ i, i < n → i * step + seg ≤ s.pending_samples := by
    intro i hi
    have h1 : i ≤ (s.pending_samples - seg) / step := by omega
    have h2 : i * step ≤ (s.pending_samples - seg) / step * step :=
      Nat.mul_le_mul_right step h1
    have h3 := Nat.div_mul_le_self (s.pending_samples - seg) step
    omega
  refine ⟨?_, ?_, ?_, ?_⟩
  · rw [processBuffer_some opts fuel s r hrate, hseg, hstep]
    rw [if_neg (by exact_mod_cast not_lt.mpr htotal)]
    rw [cutLoop_spec seg step hstep_pos hss fuel _ (by omega) (by omega)]
    rw [← hacct, ← hn]
    rfl
  · rw [length_cutSegments]
  · apply mem_cutSegments_length
    intro i hi
    rw [← hacct]
    exact hwindow i hi
  · intro i hi
    apply cutSegments_overlap seg step _ n hss i hi
    rw [← hacct]
    exact hwindow (i + 1) hi

/-- C1 witness: two chunks of two samples each at rate 1, cut with a
3-sample segment and a 1-sample step, yield the 2 overlapping segments. -/
theorem processBuffer_cuts_overlapping_segments_witness :
    (processBuffer threeOneOptions 5 fourSampleState).map Prod.snd =
        some (cutSegments 3 1 [10, 20, 30, 40] 2) ∧
      (cutSegments 3 1 [10, 20, 30, 40] 2).length = 2 ∧
      (∀ sg ∈ cutSegments 3 1 [10, 20, 30, 40] 2, sg.length = 3) ∧
      (∀ i, i + 1 < 2 →
        ((cutSegments 3 1 [10, 20, 30, 40] 2).getD i []).drop 1 =
            ((cutSegments 3 1 [10, 20, 30, 40] 2).getD (i + 1) []).take (3 - 1) ∧
          (((cutSegments 3 1 [10, 20, 30, 40] 2).getD i []).drop 1).length = 3 - 1) :=
  processBuffer_cuts_overlapping_segments threeOneOptions 5 fourSampleState 1 3 1 2
    [10, 20, 30, 40] rfl rfl segmentSamplesOf_three_one stepSamplesOf_one_one
    (by omega) (by omega) rfl (by decide) rfl (by decide)

/-! ## C5: a non-positive step is not rejected and the loop diverges -/

/-- C5 (code bug): parse_options accepts stepSeconds = 0 unchecked, and
with a full buffer the cut loop of processBuffer then makes no progress:
it finishes under no amount of fuel. -/
theorem zero_step_accepted_and_loop_diverges :
    (parse_options zeroStepPayload).step_seconds = 0 ∧
    ∀ fuel : ℕ, processBuffer (parse_options zeroStepPayload) fuel sixSampleState = none := by
  constructor
  · rfl
  · intro fuel
    rw [processBuffer_some (parse_options zeroStepPayload) fuel sixSampleState 1 rfl]
    rw [show segmentSamplesOf (parse_options zeroStepPayload).segment_seconds 1 = 6 from
          segmentSamplesOf_six_one,
        show stepSamplesOf (parse_options zeroStepPayload).step_seconds 1 = 0 from
          stepSamplesOf_zero_one]
    rw [if_neg (by decide)]
    rw [cutLoop_zero_step 6 fuel _ (by decide)]

/-! ## C10: buffer accounting invariant and cut postcondition -/

/-- C10: the running total pending_samples equals the summed chunk
lengths after every buffer operation, and after a completed
processBuffer call with a recorded rate the remainder holds fewer than
segment_samples samples. -/
theorem buffer_accounting_invariant :
    (∀ samples rate s, bufferWF s → bufferWF (appendAudio samples rate s)) ∧
    (∀ opts fuel s out, bufferWF s → processBuffer opts fuel s = some out →
       bufferWF out.1) ∧
    (∀ s, bufferWF (disable s)) ∧
    (∀ s, bufferWF (initializeState s)) ∧
    (∀ opts fuel s r out, s.pending_sample_rate = some r →
       0 < stepSamplesOf opts.step_seconds r →
       processBuffer opts fuel s = some out →
       (out.1.pending_samples : ℤ) < segmentSamplesOf opts.segment_seconds r) := by
  refine ⟨?_, ?_, ?_, ?_, ?_⟩
  · intro samples rate s h
    unfold bufferWF at h ⊢
    unfold appendAudio
    split
    · simp
    · simp [h]
  · intro opts fuel s out h hpb
    rcases hr : s.pending_sample_rate with _ | r
    · rw [processBuffer_none opts fuel s hr] at hpb
      simp only [Option.some.injEq] at hpb
      subst hpb
      exact h
    · rw [processBuffer_some opts fuel s r hr] at hpb
      split at hpb
      · simp only [Option.some.injEq] at hpb
        subst hpb
        exact h
      · cases hcut : cutLoop (segmentSamplesOf opts.segment_seconds r)
            (stepSamplesOf opts.step_seconds r) fuel
            ((s.pending_chunks.map Prod.fst).flatten) with
        | none => rw [hcut] at hpb; exact absurd hpb (by simp)
        | some p =>
          obtain ⟨segs, rest⟩ := p
          rw [hcut] at hpb
          simp only [Option.some.injEq] at hpb
          subst hpb
          unfold bufferWF
          dsimp only
          split
          · simp
          · next hne =>
            simp only [List.map_nil, List.sum_nil]
            omega
  · intro s
    unfold bufferWF disable
    simp
  · intro s
    unfold bufferWF initializeState
    simp
  · intro opts fuel s r out hr hstep hpb
    rw [processBuffer_some opts fuel s r hr] at hpb
    split at hpb
    · next hlt =>
      simp only [Option.some.injEq] at hpb
      subst hpb
      exact hlt
    · cases hcut : cutLoop (segmentSamplesOf opts.segment_seconds r)
          (stepSamplesOf opts.step_seconds r) fuel
          ((s.pending_chunks.map Prod.fst).flatten) with
      | none => rw [hcut] at hpb; exact absurd hpb (by simp)
      | some p =>
        obtain ⟨segs, rest⟩ := p
        rw [hcut] at hpb
        simp only [Option.some.injEq] at hpb
        subst hpb
        exact cutLoop_rest_lt _ _ fuel _ _ _ hcut

/-! ## C6: a rate change clears the buffer before the append -/

/-- C6: appending a chunk at a rate other than the recorded one clears
the pending buffer before appending, every append preserves the one-rate
invariant, and every emitted segment is a contiguous slice of the
concatenation of the (one-rate) pending chunks. -/
theorem rate_change_clears_before_append :
    (∀ samples rate s, s.pending_sample_rate ≠ some rate →
       appendAudio samples rate s =
         { s with pending_chunks := [(samples, rate)],
                  pending_samples := samples.length,
                  pending_sample_rate := some rate }) ∧
    (∀ samples rate s, rateConsistent s → rateConsistent (appendAudio samples rate s)) ∧
    (∀ opts fuel s out, rateConsistent s → processBuffer opts fuel s = some out →
       rateConsistent out.1 ∧
       ∀ sg ∈ out.2, sg <:+: (s.pending_chunks.map Prod.fst).flatten) := by
  refine ⟨?_, ?_, ?_⟩
  · intro samples rate s h
    unfold appendAudio
    rw [if_pos (Or.inr h)]
    simp
  · intro samples rate s h
    unfold rateConsistent at h ⊢
    unfold appendAudio
    split
    · intro p hp
      simp only [List.nil_append, List.mem_singleton] at hp
      subst hp
      rfl
    · next hcond =>
      have h2 : s.pending_sample_rate = some rate := by
        push_neg at hcond
        exact hcond.2
      intro p hp
      rcases List.mem_append.mp hp with hp1 | hp1
      · exact h p hp1
      · rw [List.mem_singleton] at hp1
        subst hp1
        exact h2.symm
  · intro opts fuel s out h hpb
    rcases hr : s.pending_sample_rate with _ | r
    · rw [processBuffer_none opts fuel s hr] at hpb
      simp only [Option.some.injEq] at hpb
      subst hpb
      exact ⟨h, by simp⟩
    · rw [processBuffer_some opts fuel s r hr] at hpb
      split at hpb
      · simp only [Option.some.injEq] at hpb
        subst hpb
        exact ⟨h, by simp⟩
      · cases hcut : cutLoop (segmentSamplesOf opts.segment_seconds r)
            (stepSamplesOf opts.step_seconds r) fuel
            ((s.pending_chunks.map Prod.fst).flatten) with
        | none => rw [hcut] at hpb; exact absurd hpb (by simp)
        | some p =>
          obtain ⟨segs, rest⟩ := p
          rw [hcut] at hpb
          simp only [Option.some.injEq] at hpb
          subst hpb
          constructor
          · intro q hq
            dsimp only at hq ⊢
            split at hq
            · rw [List.mem_singleton] at hq
              subst hq
              exact hr.symm
            · exact absurd hq (List.not_mem_nil q)
          · intro sg hsg
            exact cutLoop_mem_infix _ _ fuel _ _ _ hcut sg hsg

/-- C6 witness: a chunk at 8000 Hz arriving over a buffer recorded at
16000 Hz replaces the buffered chunk. -/
theorem rate_change_clears_before_append_witness :
    appendAudio [5, 6] 8000 exampleReadyState =
      { exampleReadyState with pending_chunks := [([5, 6], 8000)],
                               pending_samples := 2,
                               pending_sample_rate := some 8000 } :=
  rate_change_clears_before_append.1 [5, 6] 8000 exampleReadyState (by decide)

/-! ## C3: enable transitions to Enabled but does not clear the buffer -/

/-- C3 counterexample: from Ready with one buffered sample, enable sets
enabled but the pending buffer stays as it was, contradicting the claim
that enable clears it. -/
theorem enable_does_not_clear_buffer :
    (enable exampleReadyState).enabled = true ∧
    ¬((enable exampleReadyState).pending_chunks = [] ∧
      (enable exampleReadyState).pending_samples = 0) := by
  decide

/-- C3 amended: enable invoked in Ready sets enabled and changes nothing
else (in particular the pending buffer is kept); invoked before Ready it
is a no-op. -/
theorem enable_sets_enabled_only :
    ∀ s : SidecarState,
      (s.ready = true → enable s = { s with enabled := true }) ∧
      (s.ready = false → enable s = s) := by
  intro s
  constructor
  · intro h
    simp [enable, h]
  · intro h
    simp [enable, h]

/-- C3 witness: the amended statement at the two concrete states. -/
theorem enable_sets_enabled_only_witness :
    enable exampleReadyState = { exampleReadyState with enabled := true } ∧
    enable exampleLoadingState = exampleLoadingState :=
  ⟨(enable_sets_enabled_only exampleReadyState).1 rfl,
   (enable_sets_enabled_only exampleLoadingState).2 rfl⟩

/-! ## C7: the 0.6-second dedup window -/

/-- C7: a word equal to the last admitted word arriving strictly less
than 0.6 seconds after it is a duplicate — isDuplicate reports true and
leaves the dedup slot untouched, and the emit loop drops the word; a word
differing in text or arriving 0.6 seconds or later is admitted and
overwrites the slot. -/
theorem isDuplicate_dedup_window :
    ∀ (word : String) (now : ℚ) (s : SidecarState),
      (s.last_word = some word → now - s.last_word_time < 3/5 →
         isDuplicate word now s = (true, s)) ∧
      ((s.last_word ≠ some word ∨ 3/5 ≤ now - s.last_word_time) →
         isDuplicate word now s =
           (false, { s with last_word := some word, last_word_time := now })) ∧
      (∀ (now_ms : ℤ) (w : WordInfo), cleanWord w.word = word → ¬word = "" →
         ¬w.probability < 2/5 → isNoiseText word = false →
         s.last_word = some word → now - s.last_word_time < 3/5 →
         emitSegmentWords now_ms now [w] s = ([], s)) := by
  intro word now s
  refine ⟨?_, ?_, ?_⟩
  · intro h1 h2
    unfold isDuplicate
    rw [if_pos ⟨h1, h2⟩]
  · intro h
    unfold isDuplicate
    rw [if_neg ?_]
    rintro ⟨hc1, hc2⟩
    rcases h with h | h
    · exact h hc1
    · exact absurd hc2 (not_lt.mpr h)
  · intro now_ms w hclean hne hprob hnoise hlast hwin
    unfold emitSegmentWords
    rw [List.foldl_cons, List.foldl_nil]
    unfold emitStep
    rw [hclean]
    rw [if_neg (fun hc => hc.elim hne hprob)]
    rw [hnoise]
    rw [if_neg Bool.false_ne_true]
    dsimp only
    rw [show isDuplicate word now s = (true, s) from by
          unfold isDuplicate; rw [if_pos ⟨hlast, hwin⟩]]

/-- C7 witness: the word the repeated after 0.3 seconds is suppressed
and not emitted; after 0.7 seconds it is admitted. -/
theorem isDuplicate_dedup_window_witness :
    isDuplicate "the" (103/10) dedupState = (true, dedupState) ∧
    isDuplicate "the" (107/10) dedupState =
      (false, { dedupState with last_word := some "the",
                                last_word_time := 107/10 }) ∧
    emitSegmentWords 0 (103/10) [⟨"the", 1/2⟩] dedupState = ([], dedupState) :=
  ⟨(isDuplicate_dedup_window "the" (103/10) dedupState).1 rfl
     (by show (103/10 : ℚ) - 10 < 3/5; norm_num),
   (isDuplicate_dedup_window "the" (107/10) dedupState).2.1
     (Or.inr (by show (3/5 : ℚ) ≤ 107/10 - 10; norm_num)),
   (isDuplicate_dedup_window "the" (103/10) dedupState).2.2 0 ⟨"the", 1/2⟩
     (by decide) (by decide) (by norm_num) (by decide) rfl
     (by show (103/10 : ℚ) - 10 < 3/5; norm_num)⟩

/-! ## C4: the 0.4 confidence threshold is strict -/

/-- C4 counterexample: a word hypothesis with probability exactly 0.4
(that is 2/5) passes the confidence filter and is emitted, while the
claim says it is rejected. -/
theorem word_at_threshold_is_emitted :
    emitSegmentWords 7 0 [⟨"hello", 2/5⟩] freshState =
      ([{ word := "hello", timestamp := 7, confidence := 2/5 }],
       { freshState with last_word := some "hello", last_word_time := 0 }) := by
  unfold emitSegmentWords
  rw [List.foldl_cons, List.foldl_nil]
  unfold emitStep
  dsimp only
  rw [show cleanWord "hello" = "hello" from by decide]
  rw [if_neg (fun hc => hc.elim (fun h => absurd h (by decide))
        (fun h => absurd h (by norm_num)))]
  rw [show isNoiseText "hello" = false from by decide]
  rw [if_neg Bool.false_ne_true]
  unfold isDuplicate
  rw [if_neg (by rintro ⟨h1, -⟩; exact Option.noConfusion h1)]
  rfl

/-- C4 amended: for a word that passes the cleaning, noise and dedup
filters, the confidence filter rejects it exactly when its probability is
strictly below 0.4: probability 0.4 itself passes and is emitted. -/
theorem confidence_threshold_strict :
    ∀ (w : WordInfo) (now_ms : ℤ) (now : ℚ) (s : SidecarState),
      ¬cleanWord w.word = "" → isNoiseText (cleanWord w.word) = false →
      (isDuplicate (cleanWord w.word) now s).1 = false →
      (2/5 ≤ w.probability →
         (emitSegmentWords now_ms now [w] s).1 =
           [{ word := cleanWord w.word, timestamp := now_ms,
              confidence := w.probability }]) ∧
      (w.probability < 2/5 → (emitSegmentWords now_ms now [w] s).1 = []) := by
  intro w now_ms now s hne hnoise hdup
  constructor
  · intro hp
    unfold emitSegmentWords
    rw [List.foldl_cons, List.foldl_nil]
    unfold emitStep
    dsimp only
    rw [if_neg (fun hc => hc.elim hne (fun h => absurd h (not_lt.mpr hp)))]
    rw [hnoise]
    rw [if_neg Bool.false_ne_true]
    rcases hd : isDuplicate (cleanWord w.word) now s with ⟨b, s1⟩
    rw [hd] at hdup
    dsimp only at hdup
    subst hdup
    rfl
  · intro hp
    unfold emitSegmentWords
    rw [List.foldl_cons, List.foldl_nil]
    unfold emitStep
    dsimp only
    rw [if_pos (Or.inr hp)]

/-- C4 witness: the amended statement at a concrete word of probability
exactly 2/5 over the fresh state. -/
theorem confidence_threshold_strict_witness :
    ((2/5 : ℚ) ≤ 2/5 →
       (emitSegmentWords 7 0 [⟨"hello", 2/5⟩] freshState).1 =
         [{ word := cleanWord "hello", timestamp := 7, confidence := 2/5 }]) ∧
    ((2/5 : ℚ) < 2/5 →
       (emitSegmentWords 7 0 [⟨"hello", 2/5⟩] freshState).1 = []) :=
  confidence_threshold_strict ⟨"hello", 2/5⟩ 7 0 freshState
    (by decide) (by decide)
    (by unfold isDuplicate
        rw [if_neg (by rintro ⟨h1, -⟩; exact Option.noConfusion h1)])

/-! ## C9: sample counts are truncated, not rounded -/

/-- C9 counterexample: at segment_seconds 11/4 and rate 2 the product is
5.5; the code computes int(5.5) = 5 where rounding to nearest gives 6. -/
theorem samples_truncated_not_rounded_cex :
    segmentSamplesOf (11/4) 2 = 5 ∧ round ((11/4 : ℚ) * ((2 : ℕ) : ℚ)) = 6 := by
  constructor
  · unfold segmentSamplesOf
    rw [pyInt_of_nonneg (by norm_num)]
    norm_num [Int.floor_eq_iff]
  · norm_num [round_eq, Int.floor_eq_iff]

/-- C9 amended: for every nonnegative duration the cut operation computes
segment_samples and step_samples as int(seconds times rate), truncation
toward zero — the floor for nonnegative products — and this differs from
rounding to nearest. -/
theorem samples_computed_by_truncation :
    (∀ (sec : ℚ) (rate : ℕ), 0 ≤ sec →
       segmentSamplesOf sec rate = ⌊sec * (rate : ℚ)⌋ ∧
       stepSamplesOf sec rate = ⌊sec * (rate : ℚ)⌋) ∧
    segmentSamplesOf (11/4) 2 ≠ round ((11/4 : ℚ) * ((2 : ℕ) : ℚ)) := by
  constructor
  · intro sec rate h
    have hq : (0 : ℚ) ≤ sec * (rate : ℚ) := mul_nonneg h (by positivity)
    constructor
    · unfold segmentSamplesOf
      exact pyInt_of_nonneg hq
    · unfold stepSamplesOf
      exact pyInt_of_nonneg hq
  · have h1 : segmentSamplesOf (11/4) 2 = 5 := by
      unfold segmentSamplesOf
      rw [pyInt_of_nonneg (by norm_num)]
      norm_num [Int.floor_eq_iff]
    have h2 : round ((11/4 : ℚ) * ((2 : ℕ) : ℚ)) = 6 := by
      norm_num [round_eq, Int.floor_eq_iff]
    rw [h1, h2]
    decide

/-! ## Helper lemmas about whitespace trimming and scanning -/

theorem head?_some_mem {l : List Char} {c : Char} (h : l.head? = some c) : c ∈ l := by
  cases l with
  | nil => exact absurd h (by simp)
  | cons a as =>
    simp only [List.head?_cons, Option.some.injEq] at h
    subst h
    exact List.mem_cons_self a as

theorem getLast?_some_mem {l : List Char} {c : Char} (h : l.getLast? = some c) : c ∈ l := by
  rw [← List.head?_reverse] at h
  exact List.mem_reverse.mp (head?_some_mem h)

theorem head?_of_prefix {z y : List Char} (h : z <+: y) (hz : z ≠ []) :
    z.head? = y.head? := by
  obtain ⟨t, rfl⟩ := h
  cases z with
  | nil => exact absurd rfl hz
  | cons a as => rw [List.cons_append, List.head?_cons, List.head?_cons]

theorem dropWhile_head_false {p : Char → Bool} :
    ∀ {l : List Char} {c : Char} {rest : List Char},
      l.dropWhile p = c :: rest → p c = false := by
  intro l
  induction l with
  | nil => intro c rest h; exact absurd h (by simp)
  | cons a as ih =>
    intro c rest h
    rw [List.dropWhile_cons] at h
    split at h
    · exact ih h
    · next hp =>
      rw [Bool.not_eq_true] at hp
      injection h with h1 h2
      subst h1
      exact hp

theorem dropWhile_eq_self_of_head {p : Char → Bool} {l : List Char}
    (h : ∀ c, l.head? = some c → p c = false) : l.dropWhile p = l := by
  cases l with
  | nil => rfl
  | cons a as =>
    rw [List.dropWhile_cons, if_neg]
    rw [h a (by rw [List.head?_cons])]
    exact Bool.false_ne_true

theorem dropWhile_dropWhile (p : Char → Bool) (z : List Char) :
    (z.dropWhile p).dropWhile p = z.dropWhile p := by
  apply dropWhile_eq_self_of_head
  intro c hc
  cases hd : z.dropWhile p with
  | nil => rw [hd] at hc; exact absurd hc (by simp)
  | cons a as =>
    rw [hd] at hc
    simp only [List.head?_cons, Option.some.injEq] at hc
    subst hc
    exact dropWhile_head_false hd

theorem prefix_trimRight (l : List Char) : trimRight l <+: l := by
  have h : (trimRight l).reverse <:+ l.reverse := by
    unfold trimRight
    rw [List.reverse_reverse]
    exact List.dropWhile_suffix _
  exact List.reverse_suffix.mp h

theorem trimRight_idem (y : List Char) : trimRight (trimRight y) = trimRight y := by
  unfold trimRight
  rw [List.reverse_reverse, dropWhile_dropWhile]

theorem trimRight_eq_nil_iff (l : List Char) :
    trimRight l = [] ↔ l.all isPySpace = true := by
  unfold trimRight
  rw [List.reverse_eq_nil_iff, List.dropWhile_eq_nil_iff, List.all_eq_true]
  exact ⟨fun h x hx => h x (List.mem_reverse.mpr hx),
         fun h x hx => h x (List.mem_reverse.mp hx)⟩

theorem trimRight_decomp (l : List Char) :
    ∃ t, l = trimRight l ++ t ∧ t.all isPySpace = true := by
  refine ⟨(l.reverse.takeWhile isPySpace).reverse, ?_, ?_⟩
  · unfold trimRight
    rw [← List.reverse_append, List.takeWhile_append_dropWhile, List.reverse_reverse]
  · rw [List.all_eq_true]
    intro x hx
    exact List.all_eq_true.mp List.all_takeWhile x (List.mem_reverse.mp hx)

theorem trimRight_append_ws (l t : List Char) (h : t.all isPySpace = true) :
    trimRight (l ++ t) = trimRight l := by
  have h2 : t.reverse.dropWhile isPySpace = [] :=
    List.dropWhile_eq_nil_iff.mpr
      (fun x hx => List.all_eq_true.mp h x (List.mem_reverse.mp hx))
  unfold trimRight
  rw [List.reverse_append, List.dropWhile_append, h2]
  simp

theorem trimRight_concat (xs : List Char) (a : Char) (h : isPySpace a = false) :
    trimRight (xs ++ [a]) = xs ++ [a] := by
  unfold trimRight
  rw [List.reverse_append]
  simp only [List.reverse_cons, List.reverse_nil, List.nil_append, List.singleton_append]
  rw [List.dropWhile_cons, if_neg (by rw [h]; exact Bool.false_ne_true)]
  rw [List.reverse_cons, List.reverse_reverse]

theorem trimRight_append_right (xs ys : List Char) (h : trimRight ys ≠ []) :
    trimRight (xs ++ ys) = xs ++ trimRight ys := by
  have h2 : ¬(ys.reverse.dropWhile isPySpace).isEmpty = true := by
    intro hc
    apply h
    unfold trimRight
    rw [List.isEmpty_iff.mp hc, List.reverse_nil]
  unfold trimRight
  rw [List.reverse_append, List.dropWhile_append, if_neg h2, List.reverse_append,
      List.reverse_reverse]

theorem pyStrip_head_false {l : List Char} {c : Char}
    (h : (pyStrip l).head? = some c) : isPySpace c = false := by
  unfold pyStrip at h
  have hne : trimRight (l.dropWhile isPySpace) ≠ [] := by
    intro h0
    rw [h0] at h
    exact absurd h (by simp)
  have hh : (l.dropWhile isPySpace).head? = some c := by
    rw [← head?_of_prefix (prefix_trimRight _) hne]
    exact h
  cases hd : l.dropWhile isPySpace with
  | nil => rw [hd] at hh; exact absurd hh (by simp)
  | cons a as =>
    rw [hd] at hh
    simp only [List.head?_cons, Option.some.injEq] at hh
    subst hh
    exact dropWhile_head_false hd

theorem pyStrip_idem (l : List Char) : pyStrip (pyStrip l) = pyStrip l := by
  have h1 : (pyStrip l).dropWhile isPySpace = pyStrip l := by
    apply dropWhile_eq_self_of_head
    intro c hc
    exact pyStrip_head_false hc
  show trimRight ((pyStrip l).dropWhile isPySpace) = pyStrip l
  rw [h1]
  show trimRight (trimRight (l.dropWhile isPySpace)) = pyStrip l
  rw [trimRight_idem]
  rfl

theorem mem_of_mem_pyStrip {c : Char} {l : List Char} (h : c ∈ pyStrip l) : c ∈ l := by
  unfold pyStrip trimRight at h
  have h2 := List.mem_reverse.mp h
  have h3 := (List.dropWhile_sublist isPySpace).mem h2
  have h4 := List.mem_reverse.mp h3
  exact (List.dropWhile_sublist isPySpace).mem h4

theorem mem_of_mem_removeNotes {c : Char} {l : List Char}
    (h : c ∈ removeNotes l) : c ∈ l :=
  (List.mem_filter.mp h).1

/-! ## Characterization of splitAtFirst -/

theorem splitAtFirst_some (cc : Char) :
    ∀ (l b t : List Char), splitAtFirst cc l = some (b, t) →
      l = b ++ cc :: t ∧ ∀ x ∈ b, x ≠ cc := by
  intro l
  induction l with
  | nil => intro b t h; exact absurd h (by simp [splitAtFirst])
  | cons c rest ih =>
    intro b t h
    unfold splitAtFirst at h
    split at h
    · next hc =>
      simp only [Option.some.injEq, Prod.mk.injEq] at h
      obtain ⟨h1, h2⟩ := h
      subst h1
      subst h2
      have hcc : c = cc := by simpa using hc
      subst hcc
      exact ⟨rfl, by simp⟩
    · next hc =>
      cases hsp : splitAtFirst cc rest with
      | none => rw [hsp] at h; exact absurd h (by simp)
      | some p =>
        obtain ⟨b1, t1⟩ := p
        rw [hsp] at h
        simp only [Option.some.injEq, Prod.mk.injEq] at h
        obtain ⟨h1, h2⟩ := h
        subst h1
        subst h2
        obtain ⟨ih1, ih2⟩ := ih b1 t1 hsp
        constructor
        · rw [List.cons_append, ih1]
        · intro x hx
          rcases List.mem_cons.mp hx with h3 | h3
          · subst h3
            simpa using hc
          · exact ih2 x h3

theorem splitAtFirst_append (cc : Char) :
    ∀ (b t : List Char), (∀ x ∈ b, x ≠ cc) →
      splitAtFirst cc (b ++ cc :: t) = some (b, t) := by
  intro b
  induction b with
  | nil =>
    intro t _
    simp [splitAtFirst]
  | cons x xs ih =>
    intro t h
    rw [List.cons_append]
    unfold splitAtFirst
    rw [if_neg (by simp [h x (List.mem_cons_self x xs)])]
    rw [ih t (fun y hy => h y (List.mem_cons_of_mem x hy))]

theorem splitAtFirst_none (cc : Char) :
    ∀ l : List Char, splitAtFirst cc l = none → ∀ x ∈ l, x ≠ cc := by
  intro l
  induction l with
  | nil => intro _ x hx; exact absurd hx (List.not_mem_nil x)
  | cons c rest ih =>
    intro h x hx
    unfold splitAtFirst at h
    split at h
    · exact absurd h (by simp)
    · next hc =>
      cases hsp : splitAtFirst cc rest with
      | none =>
        rcases List.mem_cons.mp hx with h1 | h1
        · subst h1
          simpa using hc
        · exact ih hsp x h1
      | some p =>
        obtain ⟨b1, t1⟩ := p
        rw [hsp] at h
        exact absurd h (by simp)

theorem trimRight_eq_self_of_not_ws (l : List Char)
    (h : ∀ c ∈ l, isPySpace c = false) : trimRight l = l := by
  unfold trimRight
  rw [dropWhile_eq_self_of_head (fun c hc => h c (List.mem_reverse.mp (head?_some_mem hc))),
      List.reverse_reverse]

theorem note_not_space {c : Char} (h : isNote c = true) : isPySpace c = false := by
  unfold isNote at h
  simp only [Bool.or_eq_true, beq_iff_eq] at h
  rcases h with h | h <;> subst h <;> rfl

/-! ## The scanned noise patterns coincide with the trim-based shape rules -/

theorem matchDelimited_of_nil (oc cc : Char) (cue : Option (List Char)) (l : List Char)
    (hv : l.dropWhile isPySpace = []) : matchDelimited oc cc cue l = false := by
  unfold matchDelimited
  simp only [hv]

theorem matchDelimited_split_none (oc cc : Char) (cue : Option (List Char))
    (l : List Char) (c : Char) (rest : List Char)
    (hv : l.dropWhile isPySpace = c :: rest)
    (hsp : splitAtFirst cc rest = none) : matchDelimited oc cc cue l = false := by
  unfold matchDelimited
  simp only [hv, hsp, Bool.and_false]

theorem matchDelimited_split_some (oc cc : Char) (cue : Option (List Char))
    (l : List Char) (c : Char) (rest body tail : List Char)
    (hv : l.dropWhile isPySpace = c :: rest)
    (hsp : splitAtFirst cc rest = some (body, tail)) :
    matchDelimited oc cc cue l = (c == oc && (cueOK cue body && tail.all isPySpace)) := by
  unfold matchDelimited
  simp only [hv, hsp]

/-- The anchored pattern open [^close]* close with outer whitespace
matches exactly when the whitespace-trimmed text is one open delimiter, a
body free of the close delimiter and the close delimiter, with the cue
checked on the same body. -/
theorem matchDelimited_eq_shape (oc cc : Char) (cue : Option (List Char))
    (hccws : isPySpace cc = false) (hocc : oc ≠ cc) (l : List Char) :
    matchDelimited oc cc cue l =
      (delimitedShape oc cc (pyStrip l) &&
        cueOK cue ((pyStrip l).drop 1).dropLast) := by
  cases hv : l.dropWhile isPySpace with
  | nil =>
    rw [matchDelimited_of_nil oc cc cue l hv]
    unfold pyStrip
    rw [hv]
    rfl
  | cons c rest =>
    cases hsp : splitAtFirst cc rest with
    | none =>
      rw [matchDelimited_split_none oc cc cue l c rest hv hsp]
      unfold pyStrip
      rw [hv]
      have hnotin := splitAtFirst_none cc rest hsp
      have hshape : delimitedShape oc cc (trimRight (c :: rest)) = false := by
        rw [Bool.eq_false_iff]
        intro hs
        unfold delimitedShape at hs
        simp only [Bool.and_eq_true, decide_eq_true_eq, beq_iff_eq] at hs
        obtain ⟨⟨⟨hlen, hhead⟩, hlast⟩, -⟩ := hs
        have hmem : cc ∈ c :: rest :=
          List.Sublist.mem (getLast?_some_mem hlast)
            (List.IsPrefix.sublist (prefix_trimRight _))
        rcases List.mem_cons.mp hmem with he | he
        · have hne : trimRight (c :: rest) ≠ [] := by
            intro h0
            rw [h0] at hlast
            exact absurd hlast (by simp)
          have hh := head?_of_prefix (prefix_trimRight (c :: rest)) hne
          rw [hhead, List.head?_cons] at hh
          simp only [Option.some.injEq] at hh
          exact hocc (hh.trans he.symm)
        · exact hnotin cc he rfl
      rw [hshape]
      simp
    | some p =>
      obtain ⟨body, tail⟩ := p
      obtain ⟨hsplit, hnotin⟩ := splitAtFirst_some cc rest body tail hsp
      rw [matchDelimited_split_some oc cc cue l c rest body tail hv hsp]
      unfold pyStrip
      rw [hv]
      subst hsplit
      by_cases hws : tail.all isPySpace = true
      · have htr : trimRight (c :: (body ++ cc :: tail)) = (c :: body) ++ [cc] := by
          rw [show c :: (body ++ cc :: tail) = ((c :: body) ++ [cc]) ++ tail from by simp]
          rw [trimRight_append_ws _ tail hws, trimRight_concat _ cc hccws]
        rw [htr]
        have e5 : (((c :: body) ++ [cc]).drop 1).dropLast = body := by
          rw [List.cons_append]
          show (body ++ [cc]).dropLast = body
          exact List.dropLast_concat
        have hshape : delimitedShape oc cc ((c :: body) ++ [cc]) = (c == oc) := by
          unfold delimitedShape
          rw [List.getLast?_concat, e5]
          rw [show ((c :: body) ++ [cc]).head? = some c from by
                rw [List.cons_append, List.head?_cons]]
          rw [show decide (2 ≤ ((c :: body) ++ [cc]).length) = true from by
                rw [decide_eq_true_eq]
                simp only [List.length_append, List.length_cons]
                omega]
          rw [show (body.all fun x => x != cc) = true from
                List.all_eq_true.mpr (fun x hx => bne_iff_ne.mpr (hnotin x hx))]
          rw [show ((some cc : Option Char) == some cc) = true from beq_self_eq_true _]
          rw [show ((some c : Option Char) == some oc) = (c == oc) from rfl]
          simp
        rw [hshape, e5, hws]
        simp
      · have hwsf : tail.all isPySpace = false := Bool.eq_false_iff.mpr hws
        have htne : trimRight tail ≠ [] := fun h0 => hws ((trimRight_eq_nil_iff tail).mp h0)
        have htr : trimRight (c :: (body ++ cc :: tail)) =
            (c :: (body ++ [cc])) ++ trimRight tail := by
          rw [show c :: (body ++ cc :: tail) = (c :: (body ++ [cc])) ++ tail from by simp]
          rw [trimRight_append_right _ tail htne]
        rw [htr]
        have hmid : (((c :: (body ++ [cc])) ++ trimRight tail).drop 1).dropLast =
            (body ++ [cc]) ++ (trimRight tail).dropLast := by
          rw [show (c :: (body ++ [cc])) ++ trimRight tail =
                c :: ((body ++ [cc]) ++ trimRight tail) from by simp]
          show ((body ++ [cc]) ++ trimRight tail).dropLast =
            (body ++ [cc]) ++ (trimRight tail).dropLast
          exact List.dropLast_append_of_ne_nil _ htne
        have hshape : delimitedShape oc cc ((c :: (body ++ [cc])) ++ trimRight tail) = false := by
          unfold delimitedShape
          rw [hmid]
          rw [show (((body ++ [cc]) ++ (trimRight tail).dropLast).all fun x => x != cc) = false from by
                rw [Bool.eq_false_iff]
                intro hall
                have := List.all_eq_true.mp hall cc (by simp)
                simp at this]
          simp
        rw [hshape, hwsf]
        simp

/-- The musical-note pattern matches exactly when the trimmed text is
nonempty and made of note glyphs only. -/
theorem matchNotes_eq (l : List Char) :
    matchNotes l = (!(pyStrip l).isEmpty && (pyStrip l).all isNote) := by
  cases hv : l.dropWhile isPySpace with
  | nil =>
    unfold matchNotes pyStrip
    rw [hv]
    rfl
  | cons c rest =>
    unfold matchNotes pyStrip
    rw [hv]
    by_cases hc : isNote c = true
    · have htw : (c :: rest).takeWhile isNote = c :: rest.takeWhile isNote := by
        rw [List.takeWhile_cons, if_pos hc]
      have hdw : (c :: rest).dropWhile isNote = rest.dropWhile isNote := by
        rw [List.dropWhile_cons, if_pos hc]
      rw [htw, hdw]
      by_cases hws : (rest.dropWhile isNote).all isPySpace = true
      · rw [hws]
        have hnotes_all : ((c :: rest.takeWhile isNote)).all isNote = true := by
          rw [List.all_cons, hc, Bool.true_and]
          exact List.all_takeWhile
        have htr : trimRight (c :: rest) = c :: rest.takeWhile isNote := by
          rw [show trimRight (c :: rest) =
                trimRight ((c :: rest.takeWhile isNote) ++ rest.dropWhile isNote) from by
                rw [List.cons_append, List.takeWhile_append_dropWhile]]
          rw [trimRight_append_ws _ _ hws]
          exact trimRight_eq_self_of_not_ws _
            (fun x hx => note_not_space (List.all_eq_true.mp hnotes_all x hx))
        rw [htr, hnotes_all]
      · have hwsf : (rest.dropWhile isNote).all isPySpace = false := Bool.eq_false_iff.mpr hws
        rw [hwsf]
        have hrhs : (!(trimRight (c :: rest)).isEmpty &&
            (trimRight (c :: rest)).all isNote) = false := by
          rw [Bool.eq_false_iff]
          intro hcontra
          rw [Bool.and_eq_true] at hcontra
          obtain ⟨-, hall⟩ := hcontra
          obtain ⟨t2, hdec, ht2⟩ := trimRight_decomp (c :: rest)
          have hemp : (trimRight (c :: rest)).dropWhile isNote = [] :=
            List.dropWhile_eq_nil_iff.mpr (fun x hx => List.all_eq_true.mp hall x hx)
          have hdwn : (c :: rest).dropWhile isNote = t2.dropWhile isNote := by
            conv_lhs => rw [hdec]
            rw [List.dropWhile_append, hemp]
            simp
          have hallws : ((c :: rest).dropWhile isNote).all isPySpace = true := by
            rw [hdwn, List.all_eq_true]
            intro x hx
            exact List.all_eq_true.mp ht2 x ((List.dropWhile_sublist isNote).mem hx)
          rw [hdw] at hallws
          rw [hallws] at hwsf
          exact absurd hwsf (by simp)
        rw [hrhs]
        simp
    · have hcf : isNote c = false := Bool.eq_false_iff.mpr hc
      have htw : (c :: rest).takeWhile isNote = [] := by
        rw [List.takeWhile_cons, if_neg (by rw [hcf]; exact Bool.false_ne_true)]
      rw [htw]
      have hrhs : (!(trimRight (c :: rest)).isEmpty &&
          (trimRight (c :: rest)).all isNote) = false := by
        rw [Bool.eq_false_iff]
        intro hcontra
        rw [Bool.and_eq_true] at hcontra
        obtain ⟨hne, hall⟩ := hcontra
        have hne2 : trimRight (c :: rest) ≠ [] := by
          intro h0
          rw [h0] at hne
          exact absurd hne (by simp)
        have hh := head?_of_prefix (prefix_trimRight (c :: rest)) hne2
        rw [List.head?_cons] at hh
        have hcm : c ∈ trimRight (c :: rest) := head?_some_mem hh
        have hcn := List.all_eq_true.mp hall c hcm
        rw [hcf] at hcn
        exact absurd hcn (by simp)
      rw [hrhs]
      simp

/-! ## C2: the noise classifier accepts any fully parenthesized text -/

/-- C2 counterexample: the string (hello) carries none of the four cue
words, so the claim says it is not noise; the classifier of the code
matches it with the parenthesized-anything pattern. -/
theorem paren_without_cue_is_noise :
    isNoiseText "(hello)" = true ∧ claimNoise "(hello)" = false :=
  ⟨by decide, by decide⟩

/-- C2 amended: a string is classified as noise exactly when, after
trimming whitespace, it is fully parenthesized with one of the four cue
words; or fully bracketed with a music cue; or fully bracketed with any
content; or fully parenthesized with any content at all; or composed
solely of musical-note glyphs. -/
theorem isNoiseText_matches_amended_rules :
    ∀ s : String, isNoiseText s = claimNoiseAmended s := by
  intro s
  unfold isNoiseText claimNoiseAmended
  rw [matchDelimited_eq_shape '(' ')' (some "music".data) (by decide) (by decide) s.data,
      matchDelimited_eq_shape '(' ')' (some "singing".data) (by decide) (by decide) s.data,
      matchDelimited_eq_shape '(' ')' (some "instrumental".data) (by decide) (by decide) s.data,
      matchDelimited_eq_shape '(' ')' (some "applause".data) (by decide) (by decide) s.data,
      matchDelimited_eq_shape '[' ']' (some "music".data) (by decide) (by decide) s.data,
      matchDelimited_eq_shape '[' ']' none (by decide) (by decide) s.data,
      matchDelimited_eq_shape '(' ')' none (by decide) (by decide) s.data,
      matchNotes_eq s.data]
  simp only [cueOK, innerLower]
  generalize delimitedShape '(' ')' (pyStrip s.data) = p
  generalize delimitedShape '[' ']' (pyStrip s.data) = b
  generalize hasSubstring "music".data
      (((pyStrip s.data).drop 1).dropLast.map Char.toLower) = m1
  generalize hasSubstring "singing".data
      (((pyStrip s.data).drop 1).dropLast.map Char.toLower) = m2
  generalize hasSubstring "instrumental".data
      (((pyStrip s.data).drop 1).dropLast.map Char.toLower) = m3
  generalize hasSubstring "applause".data
      (((pyStrip s.data).drop 1).dropLast.map Char.toLower) = m4
  generalize (!(pyStrip s.data).isEmpty && (pyStrip s.data).all isNote) = n
  cases p <;> cases b <;> cases m1 <;> cases m2 <;> cases m3 <;> cases m4 <;>
    cases n <;> rfl

/-- C2 witness: the amended rule set agrees with the classifier on a
concrete bracketed caption. -/
theorem isNoiseText_matches_amended_rules_witness :
    isNoiseText "[Music]" = claimNoiseAmended "[Music]" :=
  isNoiseText_matches_amended_rules "[Music]"

/-! ## C8: word cleaning is not idempotent in general -/

theorem afterFirstCloser_eq_none (l : List Char)
    (h : ∀ c ∈ l, c ≠ ']' ∧ c ≠ ')') : afterFirstCloser l = none := by
  induction l with
  | nil => rfl
  | cons c rest ih =>
    have h1 := (h c (List.mem_cons_self c rest)).1
    have h2 := (h c (List.mem_cons_self c rest)).2
    unfold afterFirstCloser
    rw [if_neg (by simp [h1, h2])]
    split
    · rfl
    · exact ih (fun x hx => h x (List.mem_cons_of_mem c hx))

theorem sub1_cons (c : Char) (rest : List Char) :
    sub1 (c :: rest) =
      if isPySpace c || c == '[' || c == '(' then
        match afterFirstCloser rest with
        | some rest2 => rest2.dropWhile isPySpace
        | none => c :: rest
      else c :: rest := rfl

theorem sub1_no_brackets (l : List Char)
    (h : ∀ c ∈ l, c ≠ '[' ∧ c ≠ ']' ∧ c ≠ '(' ∧ c ≠ ')') : sub1 l = l := by
  cases l with
  | nil => rfl
  | cons c rest =>
    rw [sub1_cons]
    split
    · rw [afterFirstCloser_eq_none rest
          (fun x hx => ⟨(h x (List.mem_cons_of_mem c hx)).2.1,
                        (h x (List.mem_cons_of_mem c hx)).2.2.2⟩)]
    · rfl

theorem matchTrailingGroup_no_open (l : List Char)
    (h : ∀ c ∈ l, c ≠ '[' ∧ c ≠ '(') : matchTrailingGroup l = false := by
  induction l with
  | nil => rfl
  | cons c rest ih =>
    have h1 := (h c (List.mem_cons_self c rest)).1
    have h2 := (h c (List.mem_cons_self c rest)).2
    unfold matchTrailingGroup
    rw [ih (fun x hx => h x (List.mem_cons_of_mem c hx))]
    simp [h1, h2]

theorem sub2_no_open (l : List Char)
    (h : ∀ c ∈ l, c ≠ '[' ∧ c ≠ '(') : sub2 l = l := by
  induction l with
  | nil => rfl
  | cons c rest ih =>
    unfold sub2
    rw [matchTrailingGroup_no_open (c :: rest) h]
    rw [if_neg Bool.false_ne_true]
    rw [ih (fun x hx => h x (List.mem_cons_of_mem c hx))]

/-- C8 counterexample: cleaning the word with a bracketed prefix, an
inner parenthesized group and a trailing letter is not idempotent — the
first pass exposes a new leading parenthesized group that only the second
pass removes. -/
theorem cleanWord_not_idempotent_cex :
    cleanWord "[a] (b) c" = "(b) c" ∧ cleanWord (cleanWord "[a] (b) c") = "c" ∧
      ("c" : String) ≠ "(b) c" :=
  ⟨by decide, by decide, by decide⟩

/-- C8 amended: cleaning is idempotent on every word containing no
bracket or parenthesis character; in general a second application can
strip further (see the counterexample). -/
theorem cleanWord_idempotent_no_brackets :
    ∀ w : String, (∀ c ∈ w.data, c ≠ '[' ∧ c ≠ ']' ∧ c ≠ '(' ∧ c ≠ ')') →
      cleanWord (cleanWord w) = cleanWord w := by
  intro w h
  have hcw : cleanWord w = ⟨pyStrip (removeNotes w.data)⟩ := by
    unfold cleanWord
    rw [sub1_no_brackets _ h,
        sub2_no_open _ (fun c hc => ⟨(h c hc).1, (h c hc).2.2.1⟩)]
  rw [hcw]
  have hmem : ∀ c ∈ pyStrip (removeNotes w.data), c ∈ w.data := fun c hc =>
    mem_of_mem_removeNotes (mem_of_mem_pyStrip hc)
  have hb : ∀ c ∈ pyStrip (removeNotes w.data),
      c ≠ '[' ∧ c ≠ ']' ∧ c ≠ '(' ∧ c ≠ ')' := fun c hc => h c (hmem c hc)
  show cleanWord ⟨pyStrip (removeNotes w.data)⟩ = ⟨pyStrip (removeNotes w.data)⟩
  unfold cleanWord
  show (⟨pyStrip (removeNotes (sub2 (sub1 (pyStrip (removeNotes w.data)))))⟩ : String) = _
  rw [sub1_no_brackets _ hb,
      sub2_no_open _ (fun c hc => ⟨(hb c hc).1, (hb c hc).2.2.1⟩)]
  have hnotes : removeNotes (pyStrip (removeNotes w.data)) = pyStrip (removeNotes w.data) := by
    apply List.filter_eq_self.mpr
    intro c hc
    exact (List.mem_filter.mp (mem_of_mem_pyStrip hc)).2
  rw [hnotes, pyStrip_idem]

/-- C8 witness: idempotence at a concrete bracket-free word. -/
theorem cleanWord_idempotent_no_brackets_witness :
    cleanWord (cleanWord "hello world") = cleanWord "hello world" :=
  cleanWord_idempotent_no_brackets "hello world" (by decide)

end Vizec
